import Mathlib

/-!
Shallow embedding of `tools/mojo_bulk_replace.py`, a config-driven bulk
literal search/replace tool.  Texts are Lean `String`s (lists of characters),
Python dicts over string keys are insertion-ordered association lists, and
the filesystem touched by `main` is modelled as an association list from
directory path to the (recursive, walk-ordered) list of `(filename, content)`
entries beneath it.  `total_counts[name] += c` raises `KeyError` in Python
when `name` is absent, so the accumulation steps return `Option`, with `none`
playing the role of an uncaught exception.
-/

namespace MojoBulkReplace

/-! ### CPython string primitives

`str.count` and `str.replace` for a non-empty pattern scan left to right and
consume the whole match on success (non-overlapping).  `countSkip`/`replSkip`
realise that scan structurally: `skip` is the number of characters of a
previous match still to be stepped over.  For the empty pattern CPython
reports `len(s) + 1` occurrences and inserts the replacement in every gap;
`emptyReplace` is that insertion. -/

def countSkip (sub : List Char) : List Char → Nat → Nat
  | [], _ => 0
  | _ :: rest, skip + 1 => countSkip sub rest skip
  | c :: rest, 0 =>
      if sub.isPrefixOf (c :: rest) then 1 + countSkip sub rest (sub.length - 1)
      else countSkip sub rest 0

def replSkip (sub repl : List Char) : List Char → Nat → List Char
  | [], _ => []
  | _ :: rest, skip + 1 => replSkip sub repl rest skip
  | c :: rest, 0 =>
      if sub.isPrefixOf (c :: rest) then repl ++ replSkip sub repl rest (sub.length - 1)
      else c :: replSkip sub repl rest 0

def emptyReplace (repl : List Char) : List Char → List Char
  | [] => repl
  | c :: rest => repl ++ c :: emptyReplace repl rest

/-- Python `s.count(sub)` (for `str`: non-overlapping, left to right;
`len(s) + 1` when `sub` is empty). -/
def pyCount (s sub : String) : Nat :=
  if sub.data = [] then s.data.length + 1 else countSkip sub.data s.data 0

/-- Python `s.replace(sub, repl)`. -/
def pyReplace (s sub repl : String) : String :=
  if sub.data = [] then ⟨emptyReplace repl.data s.data⟩
  else ⟨replSkip sub.data repl.data s.data 0⟩

/-! ### `pathlib` suffix and the extension filter

The script computes `Path(fname).suffix.lstrip(".")`.  `PurePath.suffix`
returns `name[i:]` for the last dot index `i` only when `0 < i < len - 1`
(so dotfiles such as `.mojo`, extensionless names and names ending in a dot
all yield the empty suffix). -/

def lastDotIdx : List Char → Option Nat
  | [] => none
  | c :: rest =>
      match lastDotIdx rest with
      | some j => some (j + 1)
      | none => if c = '.' then some 0 else none

def lstripDots : List Char → List Char
  | '.' :: rest => lstripDots rest
  | s => s

def pySuffix (name : List Char) : List Char :=
  match lastDotIdx name with
  | none => []
  | some i => if 0 < i ∧ i + 1 < name.length then name.drop i else []

/-- The extension the script compares against `include_extensions`:
`Path(fname).suffix.lstrip(".")`. -/
def pyExt (fname : String) : String :=
  ⟨lstripDots (pySuffix fname.data)⟩

/-- Modelled from the spec's words (for the refinement check of the
extension filter): "compute its extension (text after the last `.`,
case-sensitive, no leading dot)".  `none` when the name has no dot. -/
def specExt (fname : String) : Option String :=
  match lastDotIdx fname.data with
  | none => none
  | some i => some ⟨fname.data.drop (i + 1)⟩

/-! ### Insertion-ordered dictionaries (the operations the script uses) -/

/-- Python `d[k]` as an option: first entry whose key equals `k`. -/
def alistGet {α : Type} (k : String) : List (String × α) → Option α
  | [] => none
  | p :: rest => if p.1 = k then some p.2 else alistGet k rest

/-- Python `d[k] = v`: overwrite in place if the key exists, else append. -/
def dictInsert {α : Type} (k : String) (v : α) : List (String × α) → List (String × α)
  | [] => [(k, v)]
  | p :: rest => if p.1 = k then (k, v) :: rest else p :: dictInsert k v rest

/-- Overwrite the value of an existing key, leaving the list unchanged when
the key is absent (used only where the key is known to be present). -/
def alistSet {α : Type} (k : String) (v : α) : List (String × α) → List (String × α)
  | [] => []
  | p :: rest => if p.1 = k then (k, v) :: rest else p :: alistSet k v rest

abbrev Counts := List (String × Nat)

/-- Python `d[k] += c`; `none` models the `KeyError` on a missing key. -/
def dictIncr (k : String) (c : Nat) : Counts → Option Counts
  | [] => none
  | p :: rest =>
      if p.1 = k then some ((p.1, p.2 + c) :: rest)
      else
        match dictIncr k c rest with
        | none => none
        | some rest' => some (p :: rest')

/-- The loop `for name, c in counts.items(): total_counts[name] += c`. -/
def addCounts : Counts → Counts → Option Counts
  | totals, [] => some totals
  | totals, p :: rest =>
      match dictIncr p.1 p.2 totals with
      | none => none
      | some totals' => addCounts totals' rest

/-! ### Data model and config loading -/

structure Replacement where
  name : String
  search : String
  replace : String
deriving DecidableEq

structure Settings where
  include_extensions : List String
  directories : List String
deriving DecidableEq

/-- One `[[replacements]]` table as parsed from the TOML document: each
field may be missing. -/
structure TomlReplacement where
  name : Option String
  search : Option String
  replace : Option String
deriving DecidableEq

/-- The defaulting performed by `load_config` on an already-parsed document:
`include_extensions` defaults to `["mojo"]`, `directories` to `[]`, each
replacement's `name` to `"unnamed"` and `search`/`replace` to `""`. -/
def load_config (ext? : Option (List String)) (dirs? : Option (List String))
    (items : List TomlReplacement) : Settings × List Replacement :=
  (⟨ext?.getD ["mojo"], dirs?.getD []⟩,
   items.map fun it => ⟨it.name.getD "unnamed", it.search.getD "", it.replace.getD ""⟩)

/-! ### The rule applier (`process_file`, minus the initial `read_text`) -/

/-- The loop body of `process_file`: for each rule, `before =
new_text.count(search)`; if nonzero, `new_text = new_text.replace(search,
replace)`; then `counts[name] = before`. -/
def applyRules : List Replacement → String → Counts → String × Counts
  | [], text, counts => (text, counts)
  | r :: rs, text, counts =>
      let before := pyCount text r.search
      let text' := if before ≠ 0 then pyReplace text r.search r.replace else text
      applyRules rs text' (dictInsert r.name before counts)

/-- `process_file` on the file's contents (the caller passes the text that
`path.read_text()` would return). -/
def process_file (repls : List Replacement) (text : String) : String × Counts :=
  applyRules repls text []

/-- The text component of the rule applier alone (no counts bookkeeping). -/
def applyText : List Replacement → String → String
  | [], text => text
  | r :: rs, text =>
      let before := pyCount text r.search
      applyText rs (if before ≠ 0 then pyReplace text r.search r.replace else text)

/-! ### The main pipeline over a modelled filesystem -/

abbrev FileEntry := String × String

abbrev FS := List (String × List FileEntry)

/-- `total_counts = {r.name: 0 for r in replacements}` (left-to-right dict
comprehension). -/
def initTotals0 (acc : Counts) : List Replacement → Counts
  | [] => acc
  | r :: rs => initTotals0 (dictInsert r.name 0 acc) rs

def initTotals (repls : List Replacement) : Counts :=
  initTotals0 [] repls

/-- The inner file loop of `main` over one directory's walked files: filter
by extension, run `process_file`, write back when in apply mode with a
report-worthy count and a changed re-read text, and fold the per-file counts
into `total_counts`.  Returns the directory's files after any writes, the
updated totals, and the per-file counts dicts of every processed file. -/
def procFiles (applyFlag : Bool) (repls : List Replacement) (exts : List String) :
    List FileEntry → Counts → Option (List FileEntry × Counts × List Counts)
  | [], totals => some ([], totals, [])
  | (fname, content) :: rest, totals =>
      if pyExt fname ∈ exts then
        match process_file repls content with
        | (new_text, counts) =>
          let content' :=
            if (counts.any fun p => p.2 != 0) = true ∧ applyFlag = true ∧ new_text ≠ content
            then new_text else content
          match addCounts totals counts with
          | none => none
          | some totals' =>
            match procFiles applyFlag repls exts rest totals' with
            | none => none
            | some (rest', totals'', reps) =>
                some ((fname, content') :: rest', totals'', counts :: reps)
      else
        match procFiles applyFlag repls exts rest totals with
        | none => none
        | some (rest', totals', reps) => some ((fname, content) :: rest', totals', reps)

/-- The outer directory loop of `main`: a configured directory missing from
the filesystem is skipped silently; an existing one has its walked files
processed and written back into the filesystem model. -/
def runDirs (applyFlag : Bool) (repls : List Replacement) (exts : List String) :
    List String → FS → Counts → Option (FS × Counts × List Counts)
  | [], fs, totals => some (fs, totals, [])
  | d :: ds, fs, totals =>
      match alistGet d fs with
      | none => runDirs applyFlag repls exts ds fs totals
      | some files =>
          match procFiles applyFlag repls exts files totals with
          | none => none
          | some (files', totals', reps₁) =>
            match runDirs applyFlag repls exts ds (alistSet d files' fs) totals' with
            | none => none
            | some (fs', totals'', reps₂) => some (fs', totals'', reps₁ ++ reps₂)

structure Args where
  dry_run : Bool
  apply : Bool
deriving DecidableEq

/-- Outcome of one run of `main`: `usageError` is `parser.error` (nonzero
exit, usage message, raised before `load_config`), `configError` is the
`SystemExit` on an empty `directories` list (before any file I/O), `crash`
an uncaught exception, and `ok` normal completion (exit zero) carrying the
final filesystem, the totals printed in the summary, and each processed
file's per-file counts. -/
inductive RunResult where
  | usageError
  | configError
  | crash
  | ok (fs : FS) (totals : Counts) (reports : List Counts)
deriving DecidableEq

/-- `main` after argument parsing: the flag check (`parser.error` only when
neither flag is given), then `load_config` (its result is the `cfg`/`repls`
arguments), the empty-`directories` check, then the directory loop. -/
def mainModel (a : Args) (cfg : Settings) (repls : List Replacement) (fs : FS) : RunResult :=
  if (!a.dry_run && !a.apply) = true then .usageError
  else if cfg.directories = [] then .configError
  else
    match runDirs a.apply repls cfg.include_extensions cfg.directories fs (initTotals repls) with
    | none => .crash
    | some (fs', totals, reps) => .ok fs' totals reps

/-- The reports a file list should generate: one counts dict per
extension-matching file, in traversal order (the specification-side
characterisation of which files are processed). -/
def fileReports (repls : List Replacement) (exts : List String) (files : List FileEntry) :
    List Counts :=
  (files.filter fun f => decide (pyExt f.1 ∈ exts)).map fun f => (process_file repls f.2).2

/-! ### Lemmas about the string primitives -/

theorem replSkip_of_countSkip_zero (sub repl : List Char) :
    ∀ l : List Char, countSkip sub l 0 = 0 → replSkip sub repl l 0 = l := by
  intro l
  induction l with
  | nil => intro _; rfl
  | cons c rest ih =>
      intro h
      simp only [countSkip] at h
      simp only [replSkip]
      split at h
      · omega
      · next hp => rw [if_neg hp, ih h]

theorem pyReplace_of_pyCount_zero (t s r : String) (h : pyCount t s = 0) :
    pyReplace t s r = t := by
  unfold pyCount at h
  unfold pyReplace
  split at h
  · omega
  · next hs =>
      rw [if_neg hs, replSkip_of_countSkip_zero _ _ _ h]

theorem emptyReplace_nil : ∀ l : List Char, emptyReplace [] l = l := by
  intro l
  induction l with
  | nil => rfl
  | cons c rest ih => simp [emptyReplace, ih]

/-! ### Lemmas about the dictionary operations -/

theorem alistGet_dictInsert_self {α : Type} (k : String) (v : α) (d : List (String × α)) :
    alistGet k (dictInsert k v d) = some v := by
  induction d with
  | nil => simp [dictInsert, alistGet]
  | cons p rest ih =>
      by_cases hp : p.1 = k
      · simp [dictInsert, hp, alistGet]
      · simp only [dictInsert, if_neg hp, alistGet, ih]

theorem alistGet_dictInsert_ne {α : Type} (k k₀ : String) (v : α) (d : List (String × α))
    (h : k ≠ k₀) : alistGet k (dictInsert k₀ v d) = alistGet k d := by
  have h' : k₀ ≠ k := Ne.symm h
  induction d with
  | nil => simp [dictInsert, alistGet, h']
  | cons p rest ih =>
      by_cases hp : p.1 = k₀
      · have hk : ¬p.1 = k := fun hh => h' (hp ▸ hh)
        simp only [dictInsert, if_pos hp, alistGet, if_neg h', if_neg hk]
      · simp only [dictInsert, if_neg hp, alistGet, ih]

theorem alistGet_eq_none_of_not_mem {α : Type} (k : String) (d : List (String × α))
    (h : k ∉ d.map Prod.fst) : alistGet k d = none := by
  induction d with
  | nil => rfl
  | cons p rest ih =>
      simp only [List.map_cons, List.mem_cons] at h
      push_neg at h
      have hp : ¬p.1 = k := fun hh => h.1 hh.symm
      simp [alistGet, hp, ih h.2]

theorem isSome_alistGet_of_mem {α : Type} (k : String) (d : List (String × α))
    (h : k ∈ d.map Prod.fst) : (alistGet k d).isSome = true := by
  induction d with
  | nil => simp at h
  | cons p rest ih =>
      by_cases hp : p.1 = k
      · simp [alistGet, hp]
      · simp only [List.map_cons, List.mem_cons] at h
        rcases h with h | h
        · exact absurd h.symm hp
        · simp [alistGet, hp, ih h]

theorem mem_keys_dictInsert {α : Type} (k₀ k : String) (v : α) (d : List (String × α))
    (h : k₀ ∈ (dictInsert k v d).map Prod.fst) : k₀ = k ∨ k₀ ∈ d.map Prod.fst := by
  induction d with
  | nil => exact Or.inl (by simpa [dictInsert] using h)
  | cons p rest ih =>
      by_cases hp : p.1 = k
      · simp only [dictInsert, if_pos hp, List.map_cons, List.mem_cons] at h
        rcases h with h | h
        · exact Or.inl h
        · exact Or.inr (by simp [h])
      · simp only [dictInsert, if_neg hp, List.map_cons, List.mem_cons] at h
        rcases h with h | h
        · exact Or.inr (by simp [h])
        · rcases ih h with h' | h'
          · exact Or.inl h'
          · exact Or.inr (by simp [h'])

theorem keys_nodup_dictInsert {α : Type} (k : String) (v : α) (d : List (String × α))
    (h : (d.map Prod.fst).Nodup) : ((dictInsert k v d).map Prod.fst).Nodup := by
  induction d with
  | nil => simp [dictInsert]
  | cons p rest ih =>
      simp only [List.map_cons, List.nodup_cons] at h
      by_cases hp : p.1 = k
      · simp only [dictInsert, if_pos hp, List.map_cons, List.nodup_cons]
        refine ⟨?_, h.2⟩
        rw [← hp]; exact h.1
      · simp only [dictInsert, if_neg hp, List.map_cons, List.nodup_cons]
        refine ⟨fun hmem => ?_, ih h.2⟩
        rcases mem_keys_dictInsert _ _ _ _ hmem with h' | h'
        · exact hp h'
        · exact h.1 h'

theorem dictIncr_some (k : String) (c : Nat) (d : Counts)
    (h : (alistGet k d).isSome = true) : ∃ d', dictIncr k c d = some d' := by
  induction d with
  | nil => simp [alistGet] at h
  | cons p rest ih =>
      by_cases hp : p.1 = k
      · exact ⟨(k, p.2 + c) :: rest, by simp [dictIncr, hp]⟩
      · simp only [alistGet, if_neg hp] at h
        obtain ⟨d', hd'⟩ := ih h
        exact ⟨p :: d', by simp [dictIncr, hp, hd']⟩

theorem dictIncr_get (k : String) (c : Nat) (d d' : Counts)
    (h : dictIncr k c d = some d') :
    ∀ k₀, alistGet k₀ d' = if k₀ = k then (alistGet k₀ d).map (· + c) else alistGet k₀ d := by
  induction d generalizing d' with
  | nil => simp [dictIncr] at h
  | cons p rest ih =>
      intro k₀
      by_cases hp : p.1 = k
      · simp only [dictIncr, if_pos hp, Option.some.injEq] at h
        subst h
        by_cases hk : k₀ = k
        · have hpk : p.1 = k₀ := hp.trans hk.symm
          simp [alistGet, hpk, hk]
        · have hpk : ¬p.1 = k₀ := fun hh => hk (hh.symm.trans hp)
          simp [alistGet, hpk, hk]
      · simp only [dictIncr, if_neg hp] at h
        cases hrec : dictIncr k c rest with
        | none => rw [hrec] at h; simp at h
        | some rest' =>
            rw [hrec] at h
            simp only [Option.some.injEq] at h
            subst h
            by_cases hpk : p.1 = k₀
            · have hk : ¬k₀ = k := fun hh => hp (hpk.trans hh)
              simp [alistGet, hpk, hk]
            · simp only [alistGet, if_neg hpk]
              exact ih rest' hrec k₀

theorem addCounts_spec (counts : Counts) :
    ∀ totals : Counts,
      (∀ k, k ∈ counts.map Prod.fst → (alistGet k totals).isSome = true) →
      (counts.map Prod.fst).Nodup →
      ∃ t', addCounts totals counts = some t'
        ∧ ∀ n, alistGet n t' = (alistGet n totals).map (· + (alistGet n counts).getD 0) := by
  induction counts with
  | nil =>
      intro totals _ _
      refine ⟨totals, rfl, fun n => ?_⟩
      cases hg : alistGet n totals <;> simp [alistGet, hg]
  | cons p rest ih =>
      intro totals hkeys hnd
      have hkp : (alistGet p.1 totals).isSome = true := hkeys p.1 (by simp)
      obtain ⟨t1, ht1⟩ := dictIncr_some p.1 p.2 totals hkp
      have hget1 := dictIncr_get p.1 p.2 totals t1 ht1
      simp only [List.map_cons, List.nodup_cons] at hnd
      have hkeys1 : ∀ k, k ∈ rest.map Prod.fst → (alistGet k t1).isSome = true := by
        intro k hk
        have hks : (alistGet k totals).isSome = true := hkeys k (by simp [hk])
        rw [hget1 k]
        by_cases hkp1 : k = p.1
        · rw [if_pos hkp1]
          cases hg : alistGet k totals
          · rw [hg] at hks; simp at hks
          · rfl
        · rw [if_neg hkp1]; exact hks
      obtain ⟨t', ht', hget'⟩ := ih t1 hkeys1 hnd.2
      refine ⟨t', by simp [addCounts, ht1, ht'], fun n => ?_⟩
      rw [hget' n, hget1 n]
      by_cases hn : n = p.1
      · have hrest : alistGet n rest = none :=
          alistGet_eq_none_of_not_mem _ _ (by rw [hn]; exact hnd.1)
        have hpn : p.1 = n := hn.symm
        rw [if_pos hn, hrest]
        simp only [alistGet, if_pos hpn, Option.getD_some, Option.getD_none]
        cases alistGet n totals <;> simp
      · have hpn : ¬p.1 = n := fun hh => hn hh.symm
        rw [if_neg hn]
        simp only [alistGet, if_neg hpn]

theorem mem_dictInsert {α : Type} (p : String × α) (k : String) (v : α)
    (d : List (String × α)) (h : p ∈ dictInsert k v d) : p = (k, v) ∨ p ∈ d := by
  induction d with
  | nil => exact Or.inl (by simpa [dictInsert] using h)
  | cons q rest ih =>
      by_cases hq : q.1 = k
      · simp only [dictInsert, if_pos hq, List.mem_cons] at h
        rcases h with h | h
        · exact Or.inl h
        · exact Or.inr (by simp [h])
      · simp only [dictInsert, if_neg hq, List.mem_cons] at h
        rcases h with h | h
        · exact Or.inr (by simp [h])
        · rcases ih h with h' | h'
          · exact Or.inl h'
          · exact Or.inr (by simp [h'])

theorem initTotals0_get (n : String) :
    ∀ (rs : List Replacement) (acc : Counts),
      alistGet n (initTotals0 acc rs)
        = if n ∈ rs.map (·.name) then some 0 else alistGet n acc := by
  intro rs
  induction rs with
  | nil => intro acc; simp [initTotals0]
  | cons r rest ih =>
      intro acc
      rw [initTotals0, ih]
      by_cases hn : n ∈ rest.map (·.name)
      · simp [List.map_cons, List.mem_cons, hn]
      · by_cases hr : n = r.name
        · simp [List.map_cons, List.mem_cons, hn, hr, alistGet_dictInsert_self]
        · rw [alistGet_dictInsert_ne _ _ _ _ hr]
          simp [List.map_cons, List.mem_cons, hn, hr]

theorem initTotals_get (n : String) (rs : List Replacement) :
    alistGet n (initTotals rs) = if n ∈ rs.map (·.name) then some 0 else none := by
  rw [initTotals, initTotals0_get]
  rfl

theorem initTotals0_zero :
    ∀ (rs : List Replacement) (acc : Counts), (∀ p ∈ acc, p.2 = 0) →
      ∀ p ∈ initTotals0 acc rs, p.2 = 0 := by
  intro rs
  induction rs with
  | nil => intro acc hacc; exact hacc
  | cons r rest ih =>
      intro acc hacc
      refine ih _ fun p hp => ?_
      rcases mem_dictInsert _ _ _ _ hp with h | h
      · rw [h]
      · exact hacc p h

theorem initTotals_zero (rs : List Replacement) : ∀ p ∈ initTotals rs, p.2 = 0 :=
  initTotals0_zero rs [] (by intro p hp; simp at hp)

/-! ### Lemmas about the rule applier -/

theorem applyRules_fst : ∀ (rs : List Replacement) (text : String) (c : Counts),
    (applyRules rs text c).1 = applyText rs text := by
  intro rs
  induction rs with
  | nil => intro text c; rfl
  | cons r rest ih =>
      intro text c
      simp only [applyRules, applyText]
      exact ih _ _

theorem applyRules_get_notmem (n : String) :
    ∀ (rs : List Replacement) (text : String) (c : Counts), n ∉ rs.map (·.name) →
      alistGet n (applyRules rs text c).2 = alistGet n c := by
  intro rs
  induction rs with
  | nil => intro text c _; rfl
  | cons r rest ih =>
      intro text c hn
      simp only [List.map_cons, List.mem_cons] at hn
      push_neg at hn
      simp only [applyRules]
      rw [ih _ _ hn.2, alistGet_dictInsert_ne _ _ _ _ hn.1]

theorem applyRules_append : ∀ (a b : List Replacement) (text : String) (c : Counts),
    applyRules (a ++ b) text c
      = applyRules b (applyRules a text c).1 (applyRules a text c).2 := by
  intro a
  induction a with
  | nil => intro b text c; rfl
  | cons r rest ih =>
      intro b text c
      simp only [List.cons_append, applyRules]
      exact ih _ _ _

theorem applyText_append : ∀ (a b : List Replacement) (text : String),
    applyText (a ++ b) text = applyText b (applyText a text) := by
  intro a
  induction a with
  | nil => intro b text; rfl
  | cons r rest ih =>
      intro b text
      simp only [List.cons_append, applyText]
      exact ih _ _

theorem applyRules_get_last (rs₁ rs₂ : List Replacement) (r : Replacement) (text : String)
    (c : Counts) (hlast : r.name ∉ rs₂.map (·.name)) :
    alistGet r.name (applyRules (rs₁ ++ r :: rs₂) text c).2
      = some (pyCount (applyText rs₁ text) r.search) := by
  rw [applyRules_append]
  simp only [applyRules]
  rw [applyRules_get_notmem _ _ _ _ hlast, alistGet_dictInsert_self, applyRules_fst]

theorem keys_applyRules_subset (n : String) :
    ∀ (rs : List Replacement) (text : String) (c : Counts),
      n ∈ ((applyRules rs text c).2).map Prod.fst →
      n ∈ rs.map (·.name) ∨ n ∈ c.map Prod.fst := by
  intro rs
  induction rs with
  | nil => intro text c h; exact Or.inr h
  | cons r rest ih =>
      intro text c h
      simp only [applyRules] at h
      rcases ih _ _ h with h' | h'
      · exact Or.inl (by simp only [List.map_cons, List.mem_cons]; exact Or.inr h')
      · rcases mem_keys_dictInsert _ _ _ _ h' with h'' | h''
        · exact Or.inl (by simp only [List.map_cons, List.mem_cons]; exact Or.inl h'')
        · exact Or.inr h''

theorem keys_applyRules_nodup :
    ∀ (rs : List Replacement) (text : String) (c : Counts),
      (c.map Prod.fst).Nodup → (((applyRules rs text c).2).map Prod.fst).Nodup := by
  intro rs
  induction rs with
  | nil => intro text c h; exact h
  | cons r rest ih =>
      intro text c h
      simp only [applyRules]
      exact ih _ _ (keys_nodup_dictInsert _ _ _ h)

/-! ### Lemmas about the main pipeline -/

theorem fileReports_cons_mem (repls : List Replacement) (exts : List String)
    (fname content : String) (rest : List FileEntry) (h : pyExt fname ∈ exts) :
    fileReports repls exts ((fname, content) :: rest)
      = (process_file repls content).2 :: fileReports repls exts rest := by
  simp [fileReports, List.filter_cons, h]

theorem fileReports_cons_notmem (repls : List Replacement) (exts : List String)
    (fname content : String) (rest : List FileEntry) (h : pyExt fname ∉ exts) :
    fileReports repls exts ((fname, content) :: rest) = fileReports repls exts rest := by
  simp [fileReports, List.filter_cons, h]

theorem procFiles_spec (b : Bool) (repls : List Replacement) (exts : List String) :
    ∀ (files : List FileEntry) (totals : Counts),
      (∀ k, k ∈ repls.map (·.name) → (alistGet k totals).isSome = true) →
      ∃ files' totals',
        procFiles b repls exts files totals = some (files', totals', fileReports repls exts files)
        ∧ (∀ n, alistGet n totals'
             = (alistGet n totals).map
                 (· + ((fileReports repls exts files).map fun c => (alistGet n c).getD 0).sum))
        ∧ files'.map Prod.fst = files.map Prod.fst
        ∧ (b = false → files' = files) := by
  intro files
  induction files with
  | nil =>
      intro totals _
      refine ⟨[], totals, rfl, fun n => ?_, rfl, fun _ => rfl⟩
      cases alistGet n totals <;> simp [fileReports]
  | cons f rest ih =>
      obtain ⟨fname, content⟩ := f
      intro totals hkeys
      by_cases hext : pyExt fname ∈ exts
      · cases hpf : process_file repls content with
        | mk nt cts =>
          have hsub : ∀ k, k ∈ cts.map Prod.fst → (alistGet k totals).isSome = true := by
            intro k hk
            have hk' : k ∈ ((applyRules repls content []).2).map Prod.fst := by
              have : cts = (applyRules repls content []).2 := by
                rw [show (applyRules repls content []) = process_file repls content from rfl, hpf]
              rw [← this]; exact hk
            rcases keys_applyRules_subset k repls content [] hk' with h' | h'
            · exact hkeys k h'
            · simp at h'
          have hnd : (cts.map Prod.fst).Nodup := by
            have : cts = (applyRules repls content []).2 := by
              rw [show (applyRules repls content []) = process_file repls content from rfl, hpf]
            rw [this]
            exact keys_applyRules_nodup repls content [] (by simp)
          obtain ⟨t1, ht1, hget1⟩ := addCounts_spec cts totals hsub hnd
          have hkeys1 : ∀ k, k ∈ repls.map (·.name) → (alistGet k t1).isSome = true := by
            intro k hk
            rw [hget1 k]
            cases hg : alistGet k totals
            · have := hkeys k hk; rw [hg] at this; simp at this
            · rfl
          obtain ⟨rest', t2, hrec, hget2, hfst, hdry⟩ := ih t1 hkeys1
          refine ⟨(fname,
              if (cts.any fun p => p.2 != 0) = true ∧ b = true ∧ nt ≠ content
              then nt else content) :: rest', t2, ?_, ?_, ?_, ?_⟩
          · simp only [procFiles, hpf, ht1, hrec]
            rw [if_pos hext, fileReports_cons_mem _ _ _ _ _ hext, hpf]
          · intro n
            rw [hget2 n, hget1 n, fileReports_cons_mem _ _ _ _ _ hext, hpf]
            cases alistGet n totals <;>
              simp [List.map_cons, List.sum_cons, Nat.add_assoc]
          · simp only [List.map_cons, hfst]
          · intro hb
            subst hb
            rw [hdry rfl, if_neg (fun hc => Bool.noConfusion hc.2.1)]
      · obtain ⟨rest', t', hrec, hget, hfst, hdry⟩ := ih totals hkeys
        refine ⟨(fname, content) :: rest', t', ?_, ?_, ?_, ?_⟩
        · simp only [procFiles, hrec]
          rw [if_neg hext, fileReports_cons_notmem _ _ _ _ _ hext]
        · intro n
          rw [hget n, fileReports_cons_notmem _ _ _ _ _ hext]
        · simp only [List.map_cons, hfst]
        · intro hb
          rw [hdry hb]

theorem procFiles_write_only (b : Bool) (repls : List Replacement) (exts : List String) :
    ∀ (files : List FileEntry) (totals : Counts) (files' : List FileEntry) (t' : Counts)
      (reps : List Counts),
      procFiles b repls exts files totals = some (files', t', reps) →
      ∀ i (hi : i < files.length) (hi' : i < files'.length),
        (files'.get ⟨i, hi'⟩).2 ≠ (files.get ⟨i, hi⟩).2 →
        b = true
        ∧ (files'.get ⟨i, hi'⟩).2 = (process_file repls (files.get ⟨i, hi⟩).2).1
        ∧ (process_file repls (files.get ⟨i, hi⟩).2).1 ≠ (files.get ⟨i, hi⟩).2 := by
  intro files
  induction files with
  | nil =>
      intro totals files' t' reps _ i hi
      simp at hi
  | cons f rest ih =>
      obtain ⟨fname, content⟩ := f
      intro totals files' t' reps h i hi hi' hne
      by_cases hext : pyExt fname ∈ exts
      · cases hpf : process_file repls content with
        | mk nt cts =>
          simp only [procFiles] at h
          rw [if_pos hext] at h
          simp only [hpf] at h
          cases haddc : addCounts totals cts with
          | none => simp only [haddc] at h; exact Option.noConfusion h
          | some t1 =>
              simp only [haddc] at h
              cases hrec : procFiles b repls exts rest t1 with
              | none => simp only [hrec] at h; exact Option.noConfusion h
              | some triple =>
                  obtain ⟨rest', t2, reps₂⟩ := triple
                  simp only [hrec, Option.some.injEq, Prod.mk.injEq] at h
                  obtain ⟨hfiles', _, _⟩ := h
                  subst hfiles'
                  cases i with
                  | zero =>
                      simp only [List.get] at hne ⊢
                      by_cases hC :
                          (cts.any fun p => p.2 != 0) = true ∧ b = true ∧ nt ≠ content
                      · rw [if_pos hC] at hne ⊢
                        refine ⟨hC.2.1, ?_, ?_⟩
                        · rw [hpf]
                        · rw [hpf]; exact hC.2.2
                      · rw [if_neg hC] at hne
                        exact absurd rfl hne
                  | succ m =>
                      simp only [List.get] at hne hi' ⊢
                      exact ih t1 rest' t2 reps₂ hrec m (Nat.lt_of_succ_lt_succ hi)
                        (Nat.lt_of_succ_lt_succ hi') hne
      · simp only [procFiles] at h
        rw [if_neg hext] at h
        cases hrec : procFiles b repls exts rest totals with
        | none => simp only [hrec] at h; exact Option.noConfusion h
        | some triple =>
            obtain ⟨rest', t2, reps₂⟩ := triple
            simp only [hrec, Option.some.injEq, Prod.mk.injEq] at h
            obtain ⟨hfiles', _, _⟩ := h
            subst hfiles'
            cases i with
            | zero =>
                simp only [List.get] at hne
                exact absurd rfl hne
            | succ m =>
                simp only [List.get] at hne hi' ⊢
                exact ih totals rest' t2 reps₂ hrec m (Nat.lt_of_succ_lt_succ hi)
                  (Nat.lt_of_succ_lt_succ hi') hne

theorem alistSet_self {α : Type} (k : String) (v : α) :
    ∀ d : List (String × α), alistGet k d = some v → alistSet k v d = d := by
  intro d
  induction d with
  | nil => intro h; exact Option.noConfusion h
  | cons p rest ih =>
      intro h
      by_cases hp : p.1 = k
      · simp only [alistGet, if_pos hp, Option.some.injEq] at h
        simp only [alistSet, if_pos hp]
        rw [← hp, ← h]
      · simp only [alistGet, if_neg hp] at h
        simp only [alistSet, if_neg hp, ih h]

theorem runDirs_spec (b : Bool) (repls : List Replacement) (exts : List String) :
    ∀ (ds : List String) (fs : FS) (totals : Counts),
      (∀ k, k ∈ repls.map (·.name) → (alistGet k totals).isSome = true) →
      ∃ fs' totals' reps,
        runDirs b repls exts ds fs totals = some (fs', totals', reps)
        ∧ (∀ n, alistGet n totals'
             = (alistGet n totals).map (· + (reps.map fun c => (alistGet n c).getD 0).sum))
        ∧ (b = false → fs' = fs) := by
  intro ds
  induction ds with
  | nil =>
      intro fs totals _
      refine ⟨fs, totals, [], rfl, fun n => ?_, fun _ => rfl⟩
      cases alistGet n totals <;> simp
  | cons d ds ih =>
      intro fs totals hkeys
      cases hd : alistGet d fs with
      | none =>
          obtain ⟨fs', t', reps, hrec, hget, hdry⟩ := ih fs totals hkeys
          refine ⟨fs', t', reps, ?_, hget, hdry⟩
          simp only [runDirs, hd, hrec]
      | some files =>
          obtain ⟨files', t1, hpf, hget1, _, hdryf⟩ := procFiles_spec b repls exts files totals hkeys
          have hkeys1 : ∀ k, k ∈ repls.map (·.name) → (alistGet k t1).isSome = true := by
            intro k hk
            rw [hget1 k]
            cases hg : alistGet k totals
            · have := hkeys k hk; rw [hg] at this; simp at this
            · rfl
          obtain ⟨fs', t2, reps₂, hrec, hget2, hdry2⟩ := ih (alistSet d files' fs) t1 hkeys1
          refine ⟨fs', t2, fileReports repls exts files ++ reps₂, ?_, ?_, ?_⟩
          · simp only [runDirs, hd, hpf, hrec]
          · intro n
            rw [hget2 n, hget1 n]
            cases alistGet n totals <;>
              simp [List.map_append, List.sum_append, Nat.add_assoc]
          · intro hb
            rw [hdry2 hb, hdryf hb, alistSet_self d files fs hd]

theorem runDirs_skip (b : Bool) (repls : List Replacement) (exts : List String) :
    ∀ (ds : List String) (fs : FS) (totals : Counts),
      (∀ d ∈ ds, alistGet d fs = none) →
      runDirs b repls exts ds fs totals = some (fs, totals, []) := by
  intro ds
  induction ds with
  | nil => intro fs totals _; rfl
  | cons d ds ih =>
      intro fs totals h
      have hd : alistGet d fs = none := h d (by simp)
      simp only [runDirs, hd]
      exact ih fs totals fun d₀ hd₀ => h d₀ (by simp [hd₀])

theorem mainModel_ok_runDirs (a : Args) (cfg : Settings) (repls : List Replacement) (fs : FS)
    (fs' : FS) (t : Counts) (reps : List Counts)
    (h : mainModel a cfg repls fs = RunResult.ok fs' t reps) :
    runDirs a.apply repls cfg.include_extensions cfg.directories fs (initTotals repls)
      = some (fs', t, reps) := by
  unfold mainModel at h
  split at h
  · exact RunResult.noConfusion h
  · split at h
    · exact RunResult.noConfusion h
    · split at h
      · exact RunResult.noConfusion h
      · next fs₀ t₀ reps₀ heq =>
          rw [heq]
          injection h with h1 h2 h3
          rw [h1, h2, h3]

theorem applyRules_no_match :
    ∀ (rs : List Replacement) (text : String) (c : Counts),
      (∀ r ∈ rs, pyCount text r.search = 0) →
      (applyRules rs text c).1 = text
      ∧ ∀ n, alistGet n (applyRules rs text c).2
          = if n ∈ rs.map (·.name) then some 0 else alistGet n c := by
  intro rs
  induction rs with
  | nil => intro text c _; exact ⟨rfl, fun n => by simp [applyRules]⟩
  | cons r rest ih =>
      intro text c h
      have hr : pyCount text r.search = 0 := h r (by simp)
      have hstep : applyRules (r :: rest) text c
          = applyRules rest text (dictInsert r.name 0 c) := by
        simp [applyRules, hr]
      obtain ⟨ht, hg⟩ := ih text (dictInsert r.name 0 c) fun r₀ hr₀ => h r₀ (by simp [hr₀])
      rw [hstep]
      refine ⟨ht, fun n => ?_⟩
      rw [hg n]
      by_cases hn : n ∈ rest.map (·.name)
      · simp [List.map_cons, List.mem_cons, hn]
      · by_cases hrn : n = r.name
        · simp [List.map_cons, List.mem_cons, hn, hrn, alistGet_dictInsert_self]
        · rw [alistGet_dictInsert_ne _ _ _ _ hrn]
          simp [List.map_cons, List.mem_cons, hn, hrn]

theorem applyText_single (r : Replacement) (t : String) :
    applyText [r] t = pyReplace t r.search r.replace := by
  by_cases hb : pyCount t r.search ≠ 0
  · simp [applyText, hb]
  · push_neg at hb
    simp only [applyText, hb, ne_eq, not_true_eq_false, if_neg, ite_false]
    exact (pyReplace_of_pyCount_zero t r.search r.replace hb).symm

/-! ### Claim theorems -/

/-- C1, counterexample: with both `--dry-run` and `--apply` given, `main` is
not a usage error: the run proceeds past the flag check, reads the config,
and (because `args.apply` is set) writes the file `d/f.mojo`. -/
theorem C1_counterexample :
    mainModel ⟨true, true⟩ ⟨["mojo"], ["d"]⟩ [⟨"r", "a", "b"⟩] [("d", [("f.mojo", "a")])]
      = RunResult.ok [("d", [("f.mojo", "b")])] [("r", 1)] [[("r", 1)]]
    ∧ mainModel ⟨true, true⟩ ⟨["mojo"], ["d"]⟩ [⟨"r", "a", "b"⟩] [("d", [("f.mojo", "a")])]
      ≠ RunResult.usageError := by
  refine ⟨rfl, ?_⟩
  intro h
  rw [show mainModel ⟨true, true⟩ ⟨["mojo"], ["d"]⟩ [⟨"r", "a", "b"⟩]
        [("d", [("f.mojo", "a")])]
      = RunResult.ok [("d", [("f.mojo", "b")])] [("r", 1)] [[("r", 1)]] from rfl] at h
  exact RunResult.noConfusion h

/-- C1, amended: the flag check is a usage error exactly when neither flag is
given; a run with both `--dry-run` and `--apply` proceeds and behaves
identically to a run with `--apply` alone (the dry-run flag is never
consulted again). -/
theorem C1_amended_thm (cfg : Settings) (repls : List Replacement) (fs : FS) :
    mainModel ⟨false, false⟩ cfg repls fs = RunResult.usageError
    ∧ mainModel ⟨true, true⟩ cfg repls fs = mainModel ⟨false, true⟩ cfg repls fs :=
  ⟨rfl, rfl⟩

/-- C2, counterexample: a rule with empty `search` is not a no-op: on input
`"ab"` it records count 3 (not 0) and rewrites the text to `"XaXbX"`. -/
theorem C2_counterexample :
    process_file [⟨"x", "", "X"⟩] "ab" = ("XaXbX", [("x", 3)])
    ∧ ("XaXbX" : String) ≠ "ab" ∧ (3 : Nat) ≠ 0 := by
  refine ⟨rfl, by decide, by decide⟩

/-- C2, amended: a rule whose `search` is the empty string matches at every
gap of the text: the recorded count is `length + 1` and the replacement is
inserted before every character and at the end; the text is returned
unchanged only when `replace` is itself empty (and even then the recorded
count is `length + 1`, not 0). -/
theorem C2_amended_thm (nm rep text : String) :
    process_file [⟨nm, "", rep⟩] text
      = (⟨emptyReplace rep.data text.data⟩, [(nm, text.data.length + 1)])
    ∧ (rep = "" → (⟨emptyReplace rep.data text.data⟩ : String) = text) := by
  have h0 : ("" : String).data = [] := rfl
  constructor
  · show applyRules [⟨nm, "", rep⟩] text [] = _
    simp [applyRules, pyCount, pyReplace, h0, dictInsert]
  · intro hrep
    subst hrep
    show (⟨emptyReplace [] text.data⟩ : String) = text
    rw [emptyReplace_nil]

/-- C2 witness. -/
theorem C2_witness : (⟨emptyReplace ("" : String).data ("ab" : String).data⟩ : String) = "ab" :=
  (C2_amended_thm "x" "" "ab").2 rfl

/-- C3, counterexample: with two rules sharing the name `"x"`, the counts
dict returned by the rule applier records only the last rule's count (0),
although the first rule's search string occurred once before its
replacement. -/
theorem C3_counterexample :
    process_file [⟨"x", "a", "b"⟩, ⟨"x", "q", "w"⟩] "a" = ("b", [("x", 0)])
    ∧ pyCount "a" "a" = 1 :=
  ⟨rfl, rfl⟩

/-- C3, amended: provided the rules' names are pairwise distinct, for each
index `i` the final counts dict maps rule `i`'s name to the number of
non-overlapping left-to-right occurrences of its search string in the text
as it stood after the first `i` rules (an entry exists even when that count
is 0), and the text after `i + 1` rules is the text after `i` rules with all
those occurrences replaced. -/
theorem C3_amended_thm (rs : List Replacement) (text : String) (i : Nat) (hi : i < rs.length)
    (hnd : (rs.map (·.name)).Nodup) :
    alistGet (rs[i]).name (process_file rs text).2
      = some (pyCount (applyText (rs.take i) text) (rs[i]).search)
    ∧ applyText (rs.take (i + 1)) text
      = pyReplace (applyText (rs.take i) text) (rs[i]).search (rs[i]).replace := by
  have hsplit : rs = rs.take i ++ rs[i] :: rs.drop (i + 1) := by
    conv_lhs => rw [← List.take_append_drop i rs]
    rw [List.drop_eq_getElem_cons hi]
  have hnames : rs.map (·.name)
      = (rs.take i).map (·.name) ++ (rs[i]).name :: (rs.drop (i + 1)).map (·.name) := by
    conv_lhs => rw [hsplit]
    simp only [List.map_append, List.map_cons]
  have hlast : (rs[i]).name ∉ (rs.drop (i + 1)).map (·.name) := by
    rw [hnames] at hnd
    exact (List.nodup_cons.mp hnd.of_append_right).1
  constructor
  · have hpf : process_file rs text
        = applyRules (rs.take i ++ rs[i] :: rs.drop (i + 1)) text [] := by
      rw [← hsplit]; rfl
    rw [hpf]
    exact applyRules_get_last (rs.take i) (rs.drop (i + 1)) rs[i] text [] hlast
  · rw [← List.take_concat_get' rs i hi, applyText_append, applyText_single]

/-- C3 witness: the spec's own example, one rule named `x` replacing
`"alias "` by `"comptime "`. -/
theorem C3_witness :
    alistGet "x"
        (process_file [⟨"x", "alias ", "comptime "⟩] "alias Foo = Int\nalias Bar = Int\n").2
      = some (pyCount (applyText (List.take 0 [⟨"x", "alias ", "comptime "⟩])
          "alias Foo = Int\nalias Bar = Int\n") "alias ")
    ∧ applyText (List.take 1 [⟨"x", "alias ", "comptime "⟩]) "alias Foo = Int\nalias Bar = Int\n"
      = pyReplace (applyText (List.take 0 [⟨"x", "alias ", "comptime "⟩])
          "alias Foo = Int\nalias Bar = Int\n") "alias " "comptime " :=
  C3_amended_thm [⟨"x", "alias ", "comptime "⟩] "alias Foo = Int\nalias Bar = Int\n" 0
    (by decide) (by decide)

/-- C9: if the text contains no occurrence of any rule's search string (in
Python's sense of `str.count`), the rule applier returns the text unchanged
and records count 0 for every rule name. -/
theorem C9_thm (rs : List Replacement) (text : String)
    (h : ∀ r ∈ rs, pyCount text r.search = 0) :
    (process_file rs text).1 = text
    ∧ ∀ n ∈ rs.map (·.name), alistGet n (process_file rs text).2 = some 0 := by
  obtain ⟨ht, hg⟩ := applyRules_no_match rs text [] h
  refine ⟨ht, fun n hn => ?_⟩
  show alistGet n (applyRules rs text []).2 = some 0
  rw [hg n, if_pos hn]

/-- C9 witness. -/
theorem C9_witness :
    (process_file [⟨"x", "zz", "y"⟩] "ab").1 = "ab"
    ∧ ∀ n ∈ ([⟨"x", "zz", "y"⟩] : List Replacement).map (·.name),
        alistGet n (process_file [⟨"x", "zz", "y"⟩] "ab").2 = some 0 :=
  C9_thm [⟨"x", "zz", "y"⟩] "ab" (by intro r hr; simp at hr; subst hr; rfl)

/-- C4: a dry-run (apply flag off) leaves the filesystem exactly as it was,
regardless of the counts; and in any mode a file's stored content changes
only when the apply flag is set and the processed text differs from the
content on disk at write time (equal to the content just processed, since
the run is single-threaded). -/
theorem C4_thm :
    (∀ (a : Args) (cfg : Settings) (repls : List Replacement) (fs fs' : FS) (t : Counts)
        (reps : List Counts), a.apply = false →
        mainModel a cfg repls fs = RunResult.ok fs' t reps → fs' = fs)
    ∧ (∀ (b : Bool) (repls : List Replacement) (exts : List String) (files : List FileEntry)
        (totals : Counts) (files' : List FileEntry) (t' : Counts) (reps : List Counts),
        procFiles b repls exts files totals = some (files', t', reps) →
        ∀ i (hi : i < files.length) (hi' : i < files'.length),
          (files'.get ⟨i, hi'⟩).2 ≠ (files.get ⟨i, hi⟩).2 →
          b = true
          ∧ (files'.get ⟨i, hi'⟩).2 = (process_file repls (files.get ⟨i, hi⟩).2).1
          ∧ (process_file repls (files.get ⟨i, hi⟩).2).1 ≠ (files.get ⟨i, hi⟩).2) := by
  constructor
  · intro a cfg repls fs fs' t reps hb hok
    have hrd := mainModel_ok_runDirs a cfg repls fs fs' t reps hok
    obtain ⟨fs₀, t₀, reps₀, hrd', _, hdry⟩ :=
      runDirs_spec a.apply repls cfg.include_extensions cfg.directories fs (initTotals repls)
        fun k hk => by rw [initTotals_get, if_pos hk]; rfl
    rw [hrd'] at hrd
    simp only [Option.some.injEq, Prod.mk.injEq] at hrd
    rw [← hrd.1]
    exact hdry hb
  · exact fun b repls exts => procFiles_write_only b repls exts

/-- C4 witness: a concrete dry-run leaves the one-file filesystem unchanged,
and a concrete apply-mode write satisfies the write conditions. -/
theorem C4_witness :
    ([("d", [("f.mojo", "a")])] : FS) = [("d", [("f.mojo", "a")])]
    ∧ ((true : Bool) = true
       ∧ ("b" : String) = (process_file [⟨"r", "a", "b"⟩] "a").1
       ∧ (process_file [⟨"r", "a", "b"⟩] "a").1 ≠ "a") :=
  ⟨C4_thm.1 ⟨true, false⟩ ⟨["mojo"], ["d"]⟩ [⟨"r", "a", "b"⟩] [("d", [("f.mojo", "a")])]
      [("d", [("f.mojo", "a")])] [("r", 1)] [[("r", 1)]] rfl rfl,
   C4_thm.2 true [⟨"r", "a", "b"⟩] ["mojo"] [("f.mojo", "a")] [("r", 0)]
      [("f.mojo", "b")] [("r", 1)] [[("r", 1)]] rfl 0 (by decide) (by decide) (by decide)⟩

/-- C5: whenever `main` completes normally, the summary total for each rule
name equals the sum over all processed files of that rule's per-file
count. -/
theorem C5_thm (a : Args) (cfg : Settings) (repls : List Replacement) (fs : FS)
    (fs' : FS) (totals : Counts) (reps : List Counts)
    (hok : mainModel a cfg repls fs = RunResult.ok fs' totals reps)
    (n : String) (hn : n ∈ repls.map (·.name)) :
    alistGet n totals = some ((reps.map fun c => (alistGet n c).getD 0).sum) := by
  have hrd := mainModel_ok_runDirs a cfg repls fs fs' totals reps hok
  obtain ⟨fs₀, t₀, reps₀, hrd', hget, _⟩ :=
    runDirs_spec a.apply repls cfg.include_extensions cfg.directories fs (initTotals repls)
      fun k hk => by rw [initTotals_get, if_pos hk]; rfl
  rw [hrd'] at hrd
  simp only [Option.some.injEq, Prod.mk.injEq] at hrd
  obtain ⟨_, ht, hr⟩ := hrd
  rw [← ht, ← hr, hget n, initTotals_get, if_pos hn]
  simp

/-- C5 witness. -/
theorem C5_witness :
    alistGet "r" [("r", 1)]
      = some (([[("r", 1)]].map fun c => (alistGet "r" c).getD 0).sum) :=
  C5_thm ⟨true, false⟩ ⟨["mojo"], ["d"]⟩ [⟨"r", "a", "b"⟩] [("d", [("f.mojo", "a")])]
    [("d", [("f.mojo", "a")])] [("r", 1)] [[("r", 1)]] rfl "r" (by simp)

/-- C6: when the run proceeds past the flag check (at least one mode flag
given) and the loaded config has an empty `directories` list — as happens
when the key is absent, since `load_config` defaults it to the empty list —
`main` aborts with the configuration error before the directory loop. -/
theorem C6_thm (d a : Bool) (hflag : (d || a) = true) (cfg : Settings)
    (repls : List Replacement) (fs : FS) (hdirs : cfg.directories = []) :
    mainModel ⟨d, a⟩ cfg repls fs = RunResult.configError := by
  cases d <;> cases a <;> simp_all [mainModel]

/-- C6 witness: a config document with no `directories` key loads to an
empty list and aborts. -/
theorem C6_witness :
    mainModel ⟨true, false⟩ (load_config (some ["mojo"]) none []).1
      (load_config (some ["mojo"]) none []).2 [] = RunResult.configError :=
  C6_thm true false rfl (load_config (some ["mojo"]) none []).1
    (load_config (some ["mojo"]) none []).2 [] rfl

/-- C7: configured directories missing from the filesystem are skipped
silently; when every configured directory is missing (and the flags and
directories list are otherwise valid) the run completes normally with the
filesystem untouched, no per-file reports, and the all-zero initial
totals. -/
theorem C7_thm (d a : Bool) (hflag : (d || a) = true) (cfg : Settings)
    (repls : List Replacement) (fs : FS) (hne : cfg.directories ≠ [])
    (hmiss : ∀ p ∈ cfg.directories, alistGet p fs = none) :
    mainModel ⟨d, a⟩ cfg repls fs = RunResult.ok fs (initTotals repls) []
    ∧ ∀ p ∈ initTotals repls, p.2 = 0 := by
  refine ⟨?_, initTotals_zero repls⟩
  have hrd := runDirs_skip a repls cfg.include_extensions cfg.directories fs
    (initTotals repls) hmiss
  cases d <;> cases a <;> simp_all [mainModel]

/-- C7 witness. -/
theorem C7_witness :
    mainModel ⟨true, false⟩ ⟨["mojo"], ["missing"]⟩ [⟨"r", "a", "b"⟩] []
      = RunResult.ok [] (initTotals [⟨"r", "a", "b"⟩]) []
    ∧ ∀ p ∈ initTotals [⟨"r", "a", "b"⟩], p.2 = 0 :=
  C7_thm true false rfl ⟨["mojo"], ["missing"]⟩ [⟨"r", "a", "b"⟩] [] (by simp)
    (by intro p hp; rfl)

/-- C8, counterexample: the dotfile `.mojo` has `"mojo"` as the text after
its last dot, so the claim says it is processed when `"mojo"` is in
`include_extensions`; but `pathlib` gives it an empty suffix, and the file
loop skips it (no report, counts stay zero). -/
theorem C8_counterexample :
    specExt ".mojo" = some "mojo"
    ∧ "mojo" ∈ ["mojo"]
    ∧ pyExt ".mojo" = ""
    ∧ procFiles false [⟨"r", "a", "b"⟩] ["mojo"] [(".mojo", "a")] [("r", 0)]
        = some ([(".mojo", "a")], [("r", 0)], []) :=
  ⟨rfl, by simp, rfl, rfl⟩

/-- C8, amended: a traversed file is processed (contributes a per-file
counts report, in traversal order) exactly when its `pathlib`-style
extension — empty for dotfiles, dotless names and names ending in a dot,
otherwise the text after the last dot — is in `include_extensions`. -/
theorem C8_amended_thm (b : Bool) (repls : List Replacement) (exts : List String)
    (files : List FileEntry) (totals : Counts)
    (hkeys : ∀ k, k ∈ repls.map (·.name) → (alistGet k totals).isSome = true) :
    ∃ files' totals',
      procFiles b repls exts files totals
        = some (files', totals', fileReports repls exts files) := by
  obtain ⟨files', t', h, _, _, _⟩ := procFiles_spec b repls exts files totals hkeys
  exact ⟨files', t', h⟩

/-- C8 witness: of a dotfile and a regular `.mojo` file, only the latter is
reported. -/
theorem C8_witness :
    ∃ files' totals',
      procFiles false [⟨"r", "a", "b"⟩] ["mojo"] [(".mojo", "a"), ("f.mojo", "a")] [("r", 0)]
        = some (files', totals',
            fileReports [⟨"r", "a", "b"⟩] ["mojo"] [(".mojo", "a"), ("f.mojo", "a")]) :=
  C8_amended_thm false [⟨"r", "a", "b"⟩] ["mojo"] [(".mojo", "a"), ("f.mojo", "a")] [("r", 0)]
    (by intro k hk; simp at hk; subst hk; rfl)

/-- C10: when rules share a name, the counts dict maps that name to the
count of the last such rule (computed on the text as mutated by all earlier
rules), every rule's replacement is still applied to the text, and the
run-wide totals for one file accumulate only that last count. -/
theorem C10_thm (rs₁ rs₂ : List Replacement) (r : Replacement) (text : String)
    (hdup : ∃ r₀ ∈ rs₁, r₀.name = r.name)
    (hlast : r.name ∉ rs₂.map (·.name)) :
    alistGet r.name (process_file (rs₁ ++ r :: rs₂) text).2
      = some (pyCount (applyText rs₁ text) r.search)
    ∧ (process_file (rs₁ ++ r :: rs₂) text).1 = applyText (rs₁ ++ r :: rs₂) text
    ∧ ∃ tot, addCounts (initTotals (rs₁ ++ r :: rs₂)) (process_file (rs₁ ++ r :: rs₂) text).2
          = some tot
        ∧ alistGet r.name tot = some (pyCount (applyText rs₁ text) r.search) := by
  have h1 : alistGet r.name (process_file (rs₁ ++ r :: rs₂) text).2
      = some (pyCount (applyText rs₁ text) r.search) :=
    applyRules_get_last rs₁ rs₂ r text [] hlast
  refine ⟨h1, applyRules_fst _ _ _, ?_⟩
  have hsub : ∀ k, k ∈ ((process_file (rs₁ ++ r :: rs₂) text).2).map Prod.fst →
      (alistGet k (initTotals (rs₁ ++ r :: rs₂))).isSome = true := by
    intro k hk
    rcases keys_applyRules_subset k _ text [] hk with h' | h'
    · rw [initTotals_get, if_pos h']; rfl
    · simp at h'
  have hnd : (((process_file (rs₁ ++ r :: rs₂) text).2).map Prod.fst).Nodup :=
    keys_applyRules_nodup _ text [] (by simp)
  obtain ⟨tot, htot, hget⟩ :=
    addCounts_spec ((process_file (rs₁ ++ r :: rs₂) text).2)
      (initTotals (rs₁ ++ r :: rs₂)) hsub hnd
  refine ⟨tot, htot, ?_⟩
  rw [hget r.name, initTotals_get,
    if_pos (show r.name ∈ (rs₁ ++ r :: rs₂).map (·.name) by simp), h1]
  simp

/-- C10 witness: two rules named `x`; the first rewrites `"a"` to `"b"`, the
second counts `"c"` in the mutated text `"bc"`. -/
theorem C10_witness :
    alistGet "x" (process_file ([⟨"x", "a", "b"⟩] ++ ⟨"x", "c", "d"⟩ :: []) "ac").2
      = some (pyCount (applyText [⟨"x", "a", "b"⟩] "ac") "c") :=
  (C10_thm [⟨"x", "a", "b"⟩] [] ⟨"x", "c", "d"⟩ "ac"
    ⟨⟨"x", "a", "b"⟩, by simp, rfl⟩ (by simp)).1

end MojoBulkReplace
